import Mathlib

/-!
# Verification of the icepack rheology and regularization kernels

Shallow embedding of the two numerical kernels of the icepack glacier-flow
library:

* `src/src/physics/viscosity.cpp` — the temperature- and strain-rate dependent
  viscosity of ice (piecewise Arrhenius rate factor, Glen flow-law viscosity)
  and the SSA constitutive tensors (`SSA::nonlinear`, `SSA::linearized`);
* `src/include/icepack/inverse/regularization.hpp` — the `SquareGradient` and
  `TotalVariation` regularization functionals (value, derivative, filter).

Floating-point numbers of the C++ source are embedded as real numbers, and the
external deal.II collaborators (mesh traversal, quadrature, basis functions,
sparse linear solvers) are embedded as explicit data: a `Discretization` record
carries, per mesh cell, the quadrature weights and the values and gradients of
the basis functions at each quadrature point, which is exactly the information
the assembly loops of the C++ source read off `FEValues`.
-/

namespace Icepack

noncomputable section

/-! ## Physical constants

`viscosity.cpp` includes `icepack/physics/constants.hpp`, which is not among
the analysed sources; the two constants it uses are modelled from the spec. -/

/-- Modelled from the spec: `year_in_sec` is defined in
`icepack/physics/constants.hpp` (not part of the analysed sources); it converts
the rate-factor calibration constants to units of years, and all that matters
for the claims is its (positive) value, the number of seconds in a Julian year. -/
def year_in_sec : ℝ := 365.25 * 24 * 3600

/-- Modelled from the spec: `ideal_gas` is defined in
`icepack/physics/constants.hpp` (not part of the analysed sources); the spec
says "R = ideal gas constant", in kJ/(mol·K) to match the activation energies
`Q` given in kJ/mol. -/
def ideal_gas : ℝ := 8.3144621e-3

/-- `transition_temperature` constant, viscosity.cpp line 19. -/
def transition_temperature : ℝ := 263.215

/-- `A0_cold` constant, viscosity.cpp line 20. -/
def A0_cold : ℝ := 3.985e-13 * year_in_sec * 1.0e18

/-- `A0_warm` constant, viscosity.cpp line 21. -/
def A0_warm : ℝ := 1.916e3 * year_in_sec * 1.0e18

/-- `Q_cold` constant, viscosity.cpp line 22. -/
def Q_cold : ℝ := 60

/-- `Q_warm` constant, viscosity.cpp line 23. -/
def Q_warm : ℝ := 139

/-- `rate_factor`, viscosity.cpp lines 25–32: select the cold- or warm-branch
constants according to `temperature < transition_temperature` and apply the
Arrhenius law `A0 · exp(−Q / (R·T))`. -/
def rate_factor (temperature : ℝ) : ℝ :=
  let A0 := if temperature < transition_temperature then A0_cold else A0_warm
  let Q := if temperature < transition_temperature then Q_cold else Q_warm
  A0 * Real.exp (-Q / (ideal_gas * temperature))

/-- `viscosity`, viscosity.cpp lines 34–38: `(A · s²)^(−1/3) / 2`, where the
C++ `std::pow` with a positive base and real exponent is the real power
`Real.rpow`. -/
def viscosity (temperature strain_rate : ℝ) : ℝ :=
  let A := rate_factor temperature
  (A * strain_rate * strain_rate) ^ (-1 / 3 : ℝ) / 2

/-! ## Symmetric tensors in two dimensions

`dealii::SymmetricTensor<2,2>` is a symmetric 2×2 matrix, stored here by its
three independent components.  `dealii::SymmetricTensor<4,2>` is symmetric in
its first and in its last index pair, so it is determined by its double
contraction action on symmetric rank-2 tensors; we represent it by that
action. -/

/-- A symmetric rank-2 tensor in two dimensions (`dealii::SymmetricTensor<2,2>`). -/
structure SymmetricTensor2 where
  xx : ℝ
  xy : ℝ
  yy : ℝ

namespace SymmetricTensor2

instance : Add SymmetricTensor2 :=
  ⟨fun a b => ⟨a.xx + b.xx, a.xy + b.xy, a.yy + b.yy⟩⟩

instance : SMul ℝ SymmetricTensor2 :=
  ⟨fun c a => ⟨c * a.xx, c * a.xy, c * a.yy⟩⟩

instance : HDiv SymmetricTensor2 ℝ SymmetricTensor2 :=
  ⟨fun a c => ⟨a.xx / c, a.xy / c, a.yy / c⟩⟩

/-- Double contraction of two symmetric rank-2 tensors
(`operator*` on `dealii::SymmetricTensor<2,2>`): `Σ aᵢⱼ bᵢⱼ`. -/
def ddot (a b : SymmetricTensor2) : ℝ :=
  a.xx * b.xx + a.yy * b.yy + 2 * (a.xy * b.xy)

end SymmetricTensor2

/-- `first_invariant` of a symmetric rank-2 tensor: its trace. -/
def first_invariant (a : SymmetricTensor2) : ℝ := a.xx + a.yy

/-- A symmetric rank-4 tensor in two dimensions
(`dealii::SymmetricTensor<4,2>`), represented by its double contraction action
on symmetric rank-2 tensors, which determines it uniquely. -/
def SymmetricTensor4 : Type := SymmetricTensor2 → SymmetricTensor2

namespace SymmetricTensor4

instance : Add SymmetricTensor4 :=
  ⟨fun A B => fun s => A s + B s⟩

instance : Sub SymmetricTensor4 :=
  ⟨fun A B => fun s => A s + (-1 : ℝ) • B s⟩

instance : SMul ℝ SymmetricTensor4 :=
  ⟨fun c A => fun s => c • A s⟩

instance : HDiv SymmetricTensor4 ℝ SymmetricTensor4 :=
  ⟨fun A c => fun s => A s / c⟩

end SymmetricTensor4

/-- `dealii::unit_symmetric_tensor<2>()`: the rank-2 identity tensor. -/
def unit_symmetric_tensor : SymmetricTensor2 := ⟨1, 0, 1⟩

/-- `dealii::identity_tensor<2>()`: the rank-4 tensor acting as the identity on
symmetric rank-2 tensors. -/
def identity_tensor : SymmetricTensor4 := fun s => s

/-- `dealii::outer_product` of two symmetric rank-2 tensors: the rank-4 tensor
`a ⊗ b`, whose double contraction with `σ` is `a · (b : σ)`. -/
def outer_product (a b : SymmetricTensor2) : SymmetricTensor4 :=
  fun s => SymmetricTensor2.ddot b s • a

namespace SSA

/-- `I` in the anonymous namespace of `SSA`, viscosity.cpp line 50. -/
def I : SymmetricTensor2 := unit_symmetric_tensor

/-- `II` in the anonymous namespace of `SSA`, viscosity.cpp line 51. -/
def II : SymmetricTensor4 := identity_tensor

/-- `C` in the anonymous namespace of `SSA`, viscosity.cpp line 52:
`II + outer_product(I, I)`. -/
def C : SymmetricTensor4 := II + outer_product I I

/-- The effective strain rate `eps_e = sqrt((ε:ε + tr²)/2)` computed inline by
both `SSA::nonlinear` (line 62) and `SSA::linearized` (line 75). -/
def eps_e (eps : SymmetricTensor2) : ℝ :=
  Real.sqrt ((SymmetricTensor2.ddot eps eps + first_invariant eps * first_invariant eps) / 2)

/-- `SSA::nonlinear`, viscosity.cpp lines 55–65: the secant constitutive
tensor `2ν·C` with `ν = h · viscosity(T, eps_e)`. -/
def nonlinear (T h : ℝ) (eps : SymmetricTensor2) : SymmetricTensor4 :=
  let nu := h * viscosity T (eps_e eps)
  (2 * nu) • C

/-- `SSA::linearized`, viscosity.cpp lines 68–81: the tangent constitutive
tensor `2ν·(C − γ⊗γ/3)` with `γ = (ε + tr·I)/eps_e`. -/
def linearized (T h : ℝ) (eps : SymmetricTensor2) : SymmetricTensor4 :=
  let tr := first_invariant eps
  let gamma := (eps + tr • I) / eps_e eps
  let nu := h * viscosity T (eps_e eps)
  (2 * nu) • (C - outer_product gamma gamma / (3.0 : ℝ))

end SSA

/-- The constitutive-tensor formula exactly as the spec words it for
`nonlinear_tensor`: `2ν·(2·I4 + I2⊗I2)` with `ν = h·viscosity(T, εe)`.  Stated
for the refinement comparison against `SSA.nonlinear`. -/
def spec_nonlinear_tensor (T h : ℝ) (eps : SymmetricTensor2) : SymmetricTensor4 :=
  (2 * (h * viscosity T (SSA.eps_e eps))) •
    ((2 : ℝ) • identity_tensor + outer_product unit_symmetric_tensor unit_symmetric_tensor)

/-! ## The discretization model

The regularization functionals read the following data off their deal.II
collaborators (`Discretization`, `FEValues`), per mesh cell: the local-to-
global degree-of-freedom map (`cell->get_dof_indices`), the quadrature weights
(`fe_values.JxW`), and the values and gradients of the basis functions at each
quadrature point (`fe_values[ex].value` / `.gradient`).  We embed a
discretization as exactly this data, specialized — as the claims allow — to
scalar fields (`rank 0`) over a two-dimensional mesh, so that field values are
real numbers and gradients are plane vectors.  Constraint distribution
(`ConstraintMatrix::distribute_local_to_global`) is an external collaborator;
it is embedded as the plain scatter-add it performs in the constraint-free
case. -/

/-- A vector in the plane: the gradient type of a scalar field over a
two-dimensional mesh. -/
structure Vec2 where
  x : ℝ
  y : ℝ

namespace Vec2

instance : Add Vec2 := ⟨fun a b => ⟨a.x + b.x, a.y + b.y⟩⟩

instance : SMul ℝ Vec2 := ⟨fun c a => ⟨c * a.x, c * a.y⟩⟩

instance : HDiv Vec2 ℝ Vec2 := ⟨fun a c => ⟨a.x / c, a.y / c⟩⟩

/-- The dot product (`operator*` on deal.II tensors of rank 1). -/
def dot (a b : Vec2) : ℝ := a.x * b.x + a.y * b.y

end Vec2

/-- One active mesh cell, carrying the data the assembly loops read off
`FEValues` after `reinit`: local-to-global dof indices, `JxW` quadrature
weights, and basis function values and gradients at quadrature points. -/
structure Cell (nDofs dofsPerCell nQ : ℕ) where
  dof : Fin dofsPerCell → Fin nDofs
  JxW : Fin nQ → ℝ
  phi : Fin dofsPerCell → Fin nQ → ℝ
  dphi : Fin dofsPerCell → Fin nQ → Vec2

/-- A discretization: its global degree-of-freedom count, the (uniform) number
of dofs per cell and quadrature points per cell, and its list of active
cells in traversal order. -/
structure Discretization where
  nDofs : ℕ
  dofsPerCell : ℕ
  nQ : ℕ
  cells : List (Cell nDofs dofsPerCell nQ)

/-- A (scalar) field: coefficients over the dofs of a discretization it
carries, as `FieldType` carries a reference to its `Discretization`. -/
structure FieldType where
  dsc : Discretization
  coeffs : Fin dsc.nDofs → ℝ

/-- `FEValues::get_function_gradients`: the gradient at quadrature point `q` of
the finite-element function with coefficient vector `u`, on the given cell:
`Σᵢ u(dof i) ∇φᵢ(q)`. -/
def localGradient (nDofs dofsPerCell nQ : ℕ) (cell : Cell nDofs dofsPerCell nQ)
    (u : Fin nDofs → ℝ) (q : Fin nQ) : Vec2 :=
  ⟨∑ i, u (cell.dof i) * (cell.dphi i q).x, ∑ i, u (cell.dof i) * (cell.dphi i q).y⟩

/-- Matrix-vector product of an `n × n` matrix of coefficients (the action of
a deal.II sparse matrix or `linear_operator`). -/
def mulVec (n : ℕ) (A : Fin n → Fin n → ℝ) (x : Fin n → ℝ) : Fin n → ℝ :=
  fun i => ∑ j, A i j * x j

/-- Modelled from the spec: the sparse linear-solve facility (`SolverCG` /
`icepack::linear_solve` from `icepack/numerics/linear_solve.hpp`, which is not
among the analysed sources) that `filter` hands its operator and right-hand
side to.  It is embedded as an explicit solver argument; its defining
property — that it returns a solution of the system — is a hypothesis of the
theorems that need it. -/
def LinearSolver (n : ℕ) : Type :=
  (Fin n → Fin n → ℝ) → (Fin n → ℝ) → (Fin n → ℝ)

/-! ## SquareGradient -/

/-- The members of the C++ class `SquareGradient<rank, dim>`: the matrix `L`
(assembled at construction by `dealii::MatrixCreator::create_laplace_matrix`
with coefficient α², an external collaborator) and the discretization's mass
matrix `M` (held by `SmartPointer`). -/
structure SquareGradient (n : ℕ) where
  L : Fin n → Fin n → ℝ
  M : Fin n → Fin n → ℝ

/-- `SquareGradient::filter`, regularization.hpp lines 70–88: its first
(primal reference field) parameter is anonymous in the source and unused; the
returned field solves `(M + L) v = f`, the solve being delegated to the
iterative solver. -/
def SquareGradient.filter (n : ℕ) (sg : SquareGradient n) (uref : FieldType)
    (f : Fin n → ℝ) (S : LinearSolver n) : Fin n → ℝ :=
  S (fun i j => sg.M i j + sg.L i j) f

/-! ## TotalVariation -/

/-- The members of the C++ class `TotalVariation<rank, dim>`: only the
smoothing parameter `alpha`.  This is the whole state an object of the class
carries across calls. -/
structure TotalVariation where
  alpha : ℝ

/-- The C++ constructor `TotalVariation(const Discretization<dim>&, const
double alpha)`, regularization.hpp lines 119–122: the discretization argument
is anonymous and discarded; only `alpha` is stored. -/
def TotalVariation.construct (dsc : Discretization) (alpha : ℝ) : TotalVariation :=
  ⟨alpha⟩

/-- The local variable `du` of the assembly loops of `TotalVariation`
(regularization.hpp lines 150, 199, 269): the gradient of the field at
quadrature point `q`, scaled by `α`. -/
def duVec (nDofs dofsPerCell nQ : ℕ) (alpha : ℝ)
    (cell : Cell nDofs dofsPerCell nQ) (u : Fin nDofs → ℝ) (q : Fin nQ) : Vec2 :=
  alpha • localGradient nDofs dofsPerCell nQ cell u q

/-- The local variable `dA` of the assembly loops of `TotalVariation`
(regularization.hpp lines 200, 270): `sqrt(du·du + 1)`. -/
def dAval (nDofs dofsPerCell nQ : ℕ) (alpha : ℝ)
    (cell : Cell nDofs dofsPerCell nQ) (u : Fin nDofs → ℝ) (q : Fin nQ) : ℝ :=
  Real.sqrt (Vec2.dot (duVec nDofs dofsPerCell nQ alpha cell u q)
    (duVec nDofs dofsPerCell nQ alpha cell u q) + 1)

/-- The local variable `tau` of `TotalVariation::filter` (regularization.hpp
line 280): the graph-normal direction `du/dA`. -/
def tauVec (nDofs dofsPerCell nQ : ℕ) (alpha : ℝ)
    (cell : Cell nDofs dofsPerCell nQ) (u : Fin nDofs → ℝ) (q : Fin nQ) : Vec2 :=
  duVec nDofs dofsPerCell nQ alpha cell u q / dAval nDofs dofsPerCell nQ alpha cell u q

/-- The body of the quadrature loop of `TotalVariation::operator()`,
regularization.hpp lines 148–153, summed over the quadrature points of one
cell: `(sqrt(du·du + 1) − 1)·dx` with `du = α·∇u(q)`. -/
def cellGraphArea (nDofs dofsPerCell nQ : ℕ) (alpha : ℝ)
    (cell : Cell nDofs dofsPerCell nQ) (u : Fin nDofs → ℝ) : ℝ :=
  ∑ q,
    let dx := cell.JxW q
    let du := duVec nDofs dofsPerCell nQ alpha cell u q
    (Real.sqrt (Vec2.dot du du + 1) - 1) * dx

/-- `TotalVariation::operator()`, regularization.hpp lines 127–157: accumulate
the pseudo-Huber graph area over all cells. -/
def TotalVariation.value (tv : TotalVariation) (u : FieldType) : ℝ :=
  u.dsc.cells.foldl
    (fun acc cell =>
      acc + cellGraphArea u.dsc.nDofs u.dsc.dofsPerCell u.dsc.nQ tv.alpha cell u.coeffs)
    0

/-- The local contribution to dof `i` accumulated by the quadrature loop of
`TotalVariation::derivative`, regularization.hpp lines 197–206:
`α·(du·∇φᵢ)/dA·dx` with `du = α·∇u(q)` and `dA = sqrt(du·du + 1)`. -/
def cellDivGraphNormal (nDofs dofsPerCell nQ : ℕ) (alpha : ℝ)
    (cell : Cell nDofs dofsPerCell nQ) (u : Fin nDofs → ℝ) (i : Fin dofsPerCell) : ℝ :=
  ∑ q,
    let dx := cell.JxW q
    let du := duVec nDofs dofsPerCell nQ alpha cell u q
    let dA := dAval nDofs dofsPerCell nQ alpha cell u q
    alpha * Vec2.dot du (cell.dphi i q) / dA * dx

/-- `TotalVariation::derivative`, regularization.hpp lines 165–217: accumulate
each cell's local vector and scatter it into the global dual field
(`distribute_local_to_global`, constraint-free case). -/
def TotalVariation.derivative (tv : TotalVariation) (u : FieldType) :
    Fin u.dsc.nDofs → ℝ :=
  u.dsc.cells.foldl
    (fun acc cell => fun g =>
      acc g + ∑ i, if cell.dof i = g then
        cellDivGraphNormal u.dsc.nDofs u.dsc.dofsPerCell u.dsc.nQ tv.alpha cell u.coeffs i
      else 0)
    (fun _ => 0)

/-- The local matrix entry `(i, j)` accumulated by the quadrature loop of
`TotalVariation::filter`, regularization.hpp lines 267–287:
`(φᵢφⱼ + α²·(∇φᵢ·∇φⱼ − (∇φᵢ·τ)(τ·∇φⱼ))/dA)·dx` with `du = α·∇u(q)`,
`dA = sqrt(du·du + 1)`, `τ = du/dA`. -/
def cellFilterMatrix (nDofs dofsPerCell nQ : ℕ) (alpha : ℝ)
    (cell : Cell nDofs dofsPerCell nQ) (u : Fin nDofs → ℝ)
    (i j : Fin dofsPerCell) : ℝ :=
  ∑ q,
    let dx := cell.JxW q
    let dA := dAval nDofs dofsPerCell nQ alpha cell u q
    let tau := tauVec nDofs dofsPerCell nQ alpha cell u q
    let cell_mass := cell.phi i q * cell.phi j q
    let cell_div_graph_normal :=
      (Vec2.dot (cell.dphi i q) (cell.dphi j q) -
        Vec2.dot (cell.dphi i q) tau * Vec2.dot tau (cell.dphi j q)) / dA
    (cell_mass + alpha * alpha * cell_div_graph_normal) * dx

/-- The operator `A` assembled inside `TotalVariation::filter`,
regularization.hpp lines 243–295: a fresh local matrix, zeroed (`A = 0`),
filled cell by cell from the reference field's gradients, and scattered into
the global sparse matrix. -/
def TotalVariation.assemble (tv : TotalVariation) (u : FieldType) :
    Fin u.dsc.nDofs → Fin u.dsc.nDofs → ℝ :=
  u.dsc.cells.foldl
    (fun A cell => fun gi gj =>
      A gi gj + ∑ i, ∑ j, if cell.dof i = gi ∧ cell.dof j = gj then
        cellFilterMatrix u.dsc.nDofs u.dsc.dofsPerCell u.dsc.nQ tv.alpha cell u.coeffs i j
      else 0)
    (fun _ _ => 0)

/-- `TotalVariation::filter`, regularization.hpp lines 229–302: assemble the
linearized operator from the reference field `u` and hand it, with the
right-hand side `f`, to the linear-solve facility. -/
def TotalVariation.filter (tv : TotalVariation) (u : FieldType)
    (f : Fin u.dsc.nDofs → ℝ) (S : LinearSolver u.dsc.nDofs) : Fin u.dsc.nDofs → ℝ :=
  S (tv.assemble u) f

/-- The mass part of the operator assembled by `TotalVariation::filter`: what
the same scatter produces from the `φᵢ·φⱼ·dx` terms alone.  (This is the mass
matrix of the discretization; the external finite-element collaborator
guarantees it is positive definite.) -/
def massPart (u : FieldType) : Fin u.dsc.nDofs → Fin u.dsc.nDofs → ℝ :=
  u.dsc.cells.foldl
    (fun A cell => fun gi gj =>
      A gi gj + ∑ i, ∑ j, if cell.dof i = gi ∧ cell.dof j = gj then
        (∑ q, cell.phi i q * cell.phi j q * cell.JxW q)
      else 0)
    (fun _ _ => 0)

/-- The quadratic form `xᵀ A x` of a matrix. -/
def quadForm (n : ℕ) (A : Fin n → Fin n → ℝ) (x : Fin n → ℝ) : ℝ :=
  ∑ i, ∑ j, x i * A i j * x j

/-- The element-local filter-matrix entry exactly as the spec words it: at
each quadrature point accumulate
`(φᵢ·φⱼ + α²·(∇φᵢ·∇φⱼ − (∇φᵢ·τ)(τ·∇φⱼ))/dA)·dx`, where `du` is the local
gradient of the reference field scaled by `α`, `dA = sqrt(du·du + 1)` and
`τ = du/dA`.  Stated for the refinement comparison against the local matrix
assembled by `TotalVariation::filter`. -/
def spec_filter_entry (nDofs dofsPerCell nQ : ℕ) (alpha : ℝ)
    (cell : Cell nDofs dofsPerCell nQ) (u : Fin nDofs → ℝ)
    (i j : Fin dofsPerCell) : ℝ :=
  ∑ q,
    let dA := dAval nDofs dofsPerCell nQ alpha cell u q
    let tau := tauVec nDofs dofsPerCell nQ alpha cell u q
    (cell.phi i q * cell.phi j q +
      alpha ^ 2 * ((Vec2.dot (cell.dphi i q) (cell.dphi j q) -
        Vec2.dot (cell.dphi i q) tau * Vec2.dot tau (cell.dphi j q)) / dA)) *
      cell.JxW q

/-- The gradient `Σᵢ yᵢ ∇φᵢ(q)` of the finite-element function with local
(per-cell) coefficients `y` — used to analyse the quadratic form of the
assembled filter operator. -/
def testGradient (nDofs dofsPerCell nQ : ℕ) (cell : Cell nDofs dofsPerCell nQ)
    (y : Fin dofsPerCell → ℝ) (q : Fin nQ) : Vec2 :=
  ⟨∑ i, y i * (cell.dphi i q).x, ∑ i, y i * (cell.dphi i q).y⟩

/-! ## Concrete sample data, used to evaluate the theorems at concrete inputs -/

/-- A single cell with one degree of freedom and one quadrature point: basis
value 1, basis gradient 0, unit quadrature weight. -/
@[reducible] def unitCell : Cell 1 1 1 := ⟨fun _ => 0, fun _ => 1, fun _ _ => 1, fun _ _ => ⟨0, 0⟩⟩

/-- The one-cell discretization over `unitCell`. -/
@[reducible] def unitDiscretization : Discretization := ⟨1, 1, 1, [unitCell]⟩

/-- The constant field with value `v` on `unitDiscretization`. -/
@[reducible] def constField (v : ℝ) : FieldType := ⟨unitDiscretization, fun _ => v⟩

/-- A sample `SquareGradient` state on one dof: `L = (1)`, `M = (1)`. -/
def sgSample : SquareGradient 1 := ⟨fun _ _ => 1, fun _ _ => 1⟩

/-- A sample solver on one dof that inverts the matrix `(2)`. -/
def solverHalf : LinearSolver 1 := fun _ b => fun i => b i / 2

/-- The identity solver, which inverts the matrix `(1)`. -/
def solverId (n : ℕ) : LinearSolver n := fun _ b => b

/-! ## Component lemmas for the tensor algebra -/

theorem SymmetricTensor2.add_xx (a b : SymmetricTensor2) : (a + b).xx = a.xx + b.xx := rfl

theorem SymmetricTensor2.add_xy (a b : SymmetricTensor2) : (a + b).xy = a.xy + b.xy := rfl

theorem SymmetricTensor2.add_yy (a b : SymmetricTensor2) : (a + b).yy = a.yy + b.yy := rfl

theorem SymmetricTensor2.smul_xx (c : ℝ) (a : SymmetricTensor2) : (c • a).xx = c * a.xx := rfl

theorem SymmetricTensor2.smul_xy (c : ℝ) (a : SymmetricTensor2) : (c • a).xy = c * a.xy := rfl

theorem SymmetricTensor2.smul_yy (c : ℝ) (a : SymmetricTensor2) : (c • a).yy = c * a.yy := rfl

theorem SymmetricTensor2.div_xx (a : SymmetricTensor2) (c : ℝ) : (a / c).xx = a.xx / c := rfl

theorem SymmetricTensor2.div_xy (a : SymmetricTensor2) (c : ℝ) : (a / c).xy = a.xy / c := rfl

theorem SymmetricTensor2.div_yy (a : SymmetricTensor2) (c : ℝ) : (a / c).yy = a.yy / c := rfl

theorem SymmetricTensor4.add_apply (A B : SymmetricTensor4) (s : SymmetricTensor2) :
    (A + B) s = A s + B s := rfl

theorem SymmetricTensor4.sub_apply (A B : SymmetricTensor4) (s : SymmetricTensor2) :
    (A - B) s = A s + (-1 : ℝ) • B s := rfl

theorem SymmetricTensor4.smul_apply (c : ℝ) (A : SymmetricTensor4) (s : SymmetricTensor2) :
    (c • A) s = c • A s := rfl

theorem SymmetricTensor4.div_apply (A : SymmetricTensor4) (c : ℝ) (s : SymmetricTensor2) :
    (A / c) s = A s / c := rfl

/-! ## Positivity of the rheology constants -/

theorem year_in_sec_pos : 0 < year_in_sec := by norm_num [year_in_sec]

theorem ideal_gas_pos : 0 < ideal_gas := by norm_num [ideal_gas]

theorem A0_cold_pos : 0 < A0_cold := by norm_num [A0_cold, year_in_sec]

theorem A0_warm_pos : 0 < A0_warm := by norm_num [A0_warm, year_in_sec]

/-- The rate factor is positive at every temperature: on either branch it is a
positive constant times an exponential. -/
theorem rate_factor_pos (T : ℝ) : 0 < rate_factor T := by
  unfold rate_factor
  by_cases h : T < transition_temperature
  · simp only [h, if_true]
    exact mul_pos A0_cold_pos (Real.exp_pos _)
  · simp only [h, if_false]
    exact mul_pos A0_warm_pos (Real.exp_pos _)

/-- The viscosity is positive whenever the strain rate is. -/
theorem viscosity_pos (T s : ℝ) (hs : 0 < s) : 0 < viscosity T s := by
  unfold viscosity
  have hbase : 0 < rate_factor T * s * s :=
    mul_pos (mul_pos (rate_factor_pos T) hs) hs
  have := Real.rpow_pos_of_pos hbase (-1 / 3 : ℝ)
  linarith

/-! ## Claims about the rheology -/

/-- C2: for every temperature `T > 0`, `rate_factor` follows the cold-branch
Arrhenius law `A0_cold · exp(−Q_cold/(R·T))` when `T < 263.215` and the
warm-branch law `A0_warm · exp(−Q_warm/(R·T))` when `T ≥ 263.215`; in
particular the boundary `T = 263.215` itself takes the warm branch. -/
theorem rate_factor_piecewise_arrhenius (T : ℝ) (hT : 0 < T) :
    (T < transition_temperature →
      rate_factor T = A0_cold * Real.exp (-Q_cold / (ideal_gas * T))) ∧
    (transition_temperature ≤ T →
      rate_factor T = A0_warm * Real.exp (-Q_warm / (ideal_gas * T))) := by
  constructor
  · intro h
    simp only [rate_factor, h, if_true]
  · intro h
    simp only [rate_factor, not_lt.mpr h, if_false]

/-- Witness for C2: both branches evaluated, at `T = 250` and `T = 270`, and
the boundary `T = 263.215` takes the warm branch. -/
theorem rate_factor_piecewise_arrhenius_witness :
    rate_factor 250 = A0_cold * Real.exp (-Q_cold / (ideal_gas * 250)) ∧
    rate_factor 270 = A0_warm * Real.exp (-Q_warm / (ideal_gas * 270)) ∧
    rate_factor 263.215 = A0_warm * Real.exp (-Q_warm / (ideal_gas * 263.215)) :=
  ⟨(rate_factor_piecewise_arrhenius 250 (by norm_num)).1
      (by norm_num [transition_temperature]),
   (rate_factor_piecewise_arrhenius 270 (by norm_num)).2
      (by norm_num [transition_temperature]),
   (rate_factor_piecewise_arrhenius 263.215 (by norm_num)).2
      (by norm_num [transition_temperature])⟩

/-- C6: the viscosity is strictly decreasing in the strain rate
(shear-thinning): for `T > 0` and `0 < s1 < s2`,
`viscosity(T, s2) < viscosity(T, s1)`. -/
theorem viscosity_strictly_decreasing (T s1 s2 : ℝ) (hT : 0 < T)
    (h1 : 0 < s1) (h12 : s1 < s2) : viscosity T s2 < viscosity T s1 := by
  unfold viscosity
  have hA : 0 < rate_factor T := rate_factor_pos T
  have hb1 : 0 < rate_factor T * s1 * s1 := mul_pos (mul_pos hA h1) h1
  have hlt : rate_factor T * s1 * s1 < rate_factor T * s2 * s2 := by
    have hd : 0 < rate_factor T * ((s2 - s1) * (s2 + s1)) :=
      mul_pos hA (mul_pos (sub_pos.mpr h12) (by linarith))
    nlinarith [hd]
  have key := Real.rpow_lt_rpow_of_neg hb1 hlt (by norm_num : (-1 / 3 : ℝ) < 0)
  linarith

/-- Witness for C6: `viscosity 260 2 < viscosity 260 1`. -/
theorem viscosity_strictly_decreasing_witness : viscosity 260 2 < viscosity 260 1 :=
  viscosity_strictly_decreasing 260 1 2 (by norm_num) (by norm_num) (by norm_num)

/-- C7: for `T > 0` and strain rate `s > 0` the viscosity formula
`(A(T)·s²)^(−1/3)/2` is well defined — its power has a strictly positive base,
so no division by zero occurs and the result is positive — and the effective
strain rate dividing `γ` in `SSA::linearized` is positive whenever the strain
invariant `ε:ε + tr²` is; at `s = 0` the base `A(T)·s²` of the negative power
degenerates to `0`, the singular case the functions do not guard against. -/
theorem viscosity_welldefined_of_pos_strain (T s : ℝ) (hT : 0 < T) (hs : 0 < s)
    (eps : SymmetricTensor2)
    (heps : 0 < SymmetricTensor2.ddot eps eps +
      first_invariant eps * first_invariant eps) :
    viscosity T s = (rate_factor T * s * s) ^ (-1 / 3 : ℝ) / 2 ∧
    0 < rate_factor T * s * s ∧
    0 < viscosity T s ∧
    0 < SSA.eps_e eps ∧
    rate_factor T * 0 * 0 = 0 := by
  refine ⟨rfl, mul_pos (mul_pos (rate_factor_pos T) hs) hs, viscosity_pos T s hs, ?_, by ring⟩
  unfold SSA.eps_e
  exact Real.sqrt_pos.mpr (by linarith)

/-- C1 counterexample: at `T = 260`, `h = 1`, `ε = diag(1, 0)` the constitutive
tensor computed by `SSA::nonlinear` differs from the spec's formula
`2ν·(2·I4 + I2⊗I2)`: the code multiplies the rank-4 identity by 1, not 2. -/
theorem nonlinear_ne_spec_formula :
    SSA.nonlinear 260 1 ⟨1, 0, 0⟩ ≠ spec_nonlinear_tensor 260 1 ⟨1, 0, 0⟩ := by
  have he : (0 : ℝ) < SSA.eps_e ⟨1, 0, 0⟩ := by
    unfold SSA.eps_e
    exact Real.sqrt_pos.mpr (by norm_num [SymmetricTensor2.ddot, first_invariant])
  have hv : 0 < viscosity 260 (SSA.eps_e ⟨1, 0, 0⟩) := viscosity_pos 260 _ he
  intro h
  have h1 := congrArg (fun A : SymmetricTensor4 => (A ⟨1, 0, 0⟩).xx) h
  simp only [SSA.nonlinear, spec_nonlinear_tensor, SSA.C, SSA.II, SSA.I,
    identity_tensor, unit_symmetric_tensor, outer_product,
    SymmetricTensor4.add_apply, SymmetricTensor4.smul_apply,
    SymmetricTensor2.add_xx, SymmetricTensor2.smul_xx,
    SymmetricTensor2.ddot] at h1
  nlinarith [h1, hv]

/-- C1 amended: for every `T > 0`, thickness `h` and symmetric `ε` with
positive effective strain rate, `SSA::nonlinear` returns
`2ν·(I4 + I2⊗I2)` — coefficient 1 on the rank-4 identity — where
`ν = h·viscosity(T, εe)` and `εe = sqrt((ε:ε + tr²)/2)`. -/
theorem nonlinear_secant_formula (T h : ℝ) (hT : 0 < T) (eps : SymmetricTensor2)
    (he : 0 < SSA.eps_e eps) :
    SSA.nonlinear T h eps =
      (2 * (h * viscosity T (SSA.eps_e eps))) •
        (identity_tensor + outer_product unit_symmetric_tensor unit_symmetric_tensor) :=
  rfl

/-- Witness for C1: the amended formula at `T = 260`, `h = 1`, `ε = diag(1, 0)`. -/
theorem nonlinear_secant_formula_witness :
    (0 : ℝ) < SSA.eps_e ⟨1, 0, 0⟩ ∧
    SSA.nonlinear 260 1 ⟨1, 0, 0⟩ =
      (2 * (1 * viscosity 260 (SSA.eps_e ⟨1, 0, 0⟩))) •
        (identity_tensor + outer_product unit_symmetric_tensor unit_symmetric_tensor) := by
  have he : (0 : ℝ) < SSA.eps_e ⟨1, 0, 0⟩ := by
    unfold SSA.eps_e
    exact Real.sqrt_pos.mpr (by norm_num [SymmetricTensor2.ddot, first_invariant])
  exact ⟨he, nonlinear_secant_formula 260 1 (by norm_num) ⟨1, 0, 0⟩ he⟩

/-- C9: double-contracting each constitutive tensor twice with `ε`, the
tangent dissipation is exactly one third of the secant dissipation — the
tangent-to-secant ratio induced by the Glen flow-law exponent 3. -/
theorem linearized_contraction_third_of_nonlinear (T h : ℝ) (hT : 0 < T)
    (eps : SymmetricTensor2) (he : 0 < SSA.eps_e eps) :
    SymmetricTensor2.ddot (SSA.linearized T h eps eps) eps =
      1 / 3 * SymmetricTensor2.ddot (SSA.nonlinear T h eps eps) eps := by
  obtain ⟨a, b, c⟩ := eps
  have hdd : 0 ≤ (SymmetricTensor2.ddot ⟨a, b, c⟩ ⟨a, b, c⟩ +
      first_invariant ⟨a, b, c⟩ * first_invariant ⟨a, b, c⟩) / 2 := by
    simp only [SymmetricTensor2.ddot, first_invariant]
    nlinarith [sq_nonneg a, sq_nonneg b, sq_nonneg c, sq_nonneg (a + c)]
  have he2 : SSA.eps_e ⟨a, b, c⟩ ^ 2 = (SymmetricTensor2.ddot ⟨a, b, c⟩ ⟨a, b, c⟩ +
      first_invariant ⟨a, b, c⟩ * first_invariant ⟨a, b, c⟩) / 2 := by
    unfold SSA.eps_e
    exact Real.sq_sqrt hdd
  have hne : SSA.eps_e ⟨a, b, c⟩ ≠ 0 := ne_of_gt he
  simp only [SymmetricTensor2.ddot, first_invariant] at he2
  simp only [SSA.linearized, SSA.nonlinear, SSA.C, SSA.II, SSA.I,
    identity_tensor, unit_symmetric_tensor, outer_product,
    SymmetricTensor4.add_apply, SymmetricTensor4.sub_apply,
    SymmetricTensor4.smul_apply, SymmetricTensor4.div_apply,
    SymmetricTensor2.add_xx, SymmetricTensor2.add_xy, SymmetricTensor2.add_yy,
    SymmetricTensor2.smul_xx, SymmetricTensor2.smul_xy, SymmetricTensor2.smul_yy,
    SymmetricTensor2.div_xx, SymmetricTensor2.div_xy, SymmetricTensor2.div_yy,
    SymmetricTensor2.ddot, first_invariant]
  field_simp
  linear_combination (12 * (h * viscosity T (SSA.eps_e ⟨a, b, c⟩)) *
    ((a + (a + c)) * a + (c + (a + c)) * c + 2 * (b * b))) * he2

/-- Witness for C9: the tangent-to-secant ratio at `T = 260`, `h = 1`,
`ε = diag(1, 0)`. -/
theorem linearized_contraction_third_of_nonlinear_witness :
    SymmetricTensor2.ddot (SSA.linearized 260 1 ⟨1, 0, 0⟩ ⟨1, 0, 0⟩) ⟨1, 0, 0⟩ =
      1 / 3 * SymmetricTensor2.ddot (SSA.nonlinear 260 1 ⟨1, 0, 0⟩ ⟨1, 0, 0⟩) ⟨1, 0, 0⟩ := by
  have he : (0 : ℝ) < SSA.eps_e ⟨1, 0, 0⟩ := by
    unfold SSA.eps_e
    exact Real.sqrt_pos.mpr (by norm_num [SymmetricTensor2.ddot, first_invariant])
  exact linearized_contraction_third_of_nonlinear 260 1 (by norm_num) ⟨1, 0, 0⟩ he

/-- Witness for C7: at `T = 260`, `s = 1`, `ε = diag(1, 0)`. -/
theorem viscosity_welldefined_of_pos_strain_witness :
    viscosity 260 1 = (rate_factor 260 * 1 * 1) ^ (-1 / 3 : ℝ) / 2 ∧
    0 < rate_factor 260 * 1 * 1 ∧
    0 < viscosity 260 1 ∧
    0 < SSA.eps_e ⟨1, 0, 0⟩ ∧
    rate_factor 260 * 0 * 0 = 0 :=
  viscosity_welldefined_of_pos_strain 260 1 (by norm_num) (by norm_num)
    ⟨1, 0, 0⟩ (by norm_num [SymmetricTensor2.ddot, first_invariant])

/-! ## Claims about the regularization functionals -/

/-- Evaluating a left fold that accumulates matrix contributions pointwise:
entry `(gi, gj)` of the fold is the base entry plus the sum of the mapped
contributions at `(gi, gj)`. -/
theorem foldl_scatter_apply {α : Type} (l : List α) (n : ℕ)
    (F : α → Fin n → Fin n → ℝ) (A0 : Fin n → Fin n → ℝ) (gi gj : Fin n) :
    (l.foldl (fun A cel => fun gi2 gj2 => A gi2 gj2 + F cel gi2 gj2) A0) gi gj =
      A0 gi gj + (l.map (fun cel => F cel gi gj)).sum := by
  induction l generalizing A0 with
  | nil => simp
  | cons hd tl ih =>
      simp only [List.foldl_cons, List.map_cons, List.sum_cons, ih]
      ring

/-- The local matrix assembled per cell by `TotalVariation::filter` matches
the spec's per-element entry formula. -/
theorem cellFilterMatrix_eq_spec (nDofs dofsPerCell nQ : ℕ) (alpha : ℝ)
    (cell : Cell nDofs dofsPerCell nQ) (u : Fin nDofs → ℝ)
    (i j : Fin dofsPerCell) :
    cellFilterMatrix nDofs dofsPerCell nQ alpha cell u i j =
      spec_filter_entry nDofs dofsPerCell nQ alpha cell u i j := by
  unfold cellFilterMatrix spec_filter_entry
  refine Finset.sum_congr rfl (fun q _ => ?_)
  ring

/-- C3: `TotalVariation::filter` computes its operator from nothing but the
current reference field (and the constructed `α`): the result is the solver
applied to the freshly assembled matrix, whose every global entry is the plain
scatter-added sum over cells of the spec's local entries, and — when the
solver solves the system it is handed — the result solves `A(u_ref)·v = f`. -/
theorem totalVariation_filter_fresh_operator (tv : TotalVariation) (u : FieldType)
    (f : Fin u.dsc.nDofs → ℝ) (S : LinearSolver u.dsc.nDofs)
    (hS : mulVec u.dsc.nDofs (tv.assemble u) (S (tv.assemble u) f) = f) :
    TotalVariation.filter tv u f S = S (tv.assemble u) f ∧
    mulVec u.dsc.nDofs (tv.assemble u) (TotalVariation.filter tv u f S) = f ∧
    ∀ gi gj, tv.assemble u gi gj =
      (u.dsc.cells.map (fun cell =>
        ∑ i, ∑ j, if cell.dof i = gi ∧ cell.dof j = gj then
          spec_filter_entry u.dsc.nDofs u.dsc.dofsPerCell u.dsc.nQ tv.alpha
            cell u.coeffs i j
        else 0)).sum := by
  refine ⟨rfl, hS, fun gi gj => ?_⟩
  unfold TotalVariation.assemble
  rw [foldl_scatter_apply u.dsc.cells u.dsc.nDofs
    (fun cell gi2 gj2 => ∑ i, ∑ j, if cell.dof i = gi2 ∧ cell.dof j = gj2 then
      cellFilterMatrix u.dsc.nDofs u.dsc.dofsPerCell u.dsc.nQ tv.alpha
        cell u.coeffs i j else 0)
    (fun _ _ => 0) gi gj]
  simp only [cellFilterMatrix_eq_spec, zero_add]

/-- Witness for C3: on the one-cell discretization with zero reference field,
`α = 1` and `f = 3`, the assembled operator is the 1×1 identity and the
identity solver solves the system. -/
theorem totalVariation_filter_fresh_operator_witness :
    TotalVariation.filter ⟨1⟩ (constField 0) (fun _ => 3) (solverId 1) =
      solverId 1 ((⟨1⟩ : TotalVariation).assemble (constField 0)) (fun _ => 3) ∧
    mulVec 1 ((⟨1⟩ : TotalVariation).assemble (constField 0))
      (TotalVariation.filter ⟨1⟩ (constField 0) (fun _ => 3) (solverId 1)) =
      (fun _ => 3) ∧
    ∀ gi gj, (⟨1⟩ : TotalVariation).assemble (constField 0) gi gj =
      ((constField 0).dsc.cells.map (fun cell =>
        ∑ i, ∑ j, if cell.dof i = gi ∧ cell.dof j = gj then
          spec_filter_entry (constField 0).dsc.nDofs (constField 0).dsc.dofsPerCell
            (constField 0).dsc.nQ (1 : ℝ) cell (constField 0).coeffs i j
        else 0)).sum := by
  have hA : ∀ gi gj, (⟨1⟩ : TotalVariation).assemble (constField 0) gi gj = 1 := by
    intro gi gj
    unfold TotalVariation.assemble constField unitDiscretization
    simp only [List.foldl_cons, List.foldl_nil]
    simp [unitCell, cellFilterMatrix, localGradient, Vec2.dot,
      Fin.sum_univ_one, Real.sqrt_one, Fin.eq_zero gi, Fin.eq_zero gj]
  refine totalVariation_filter_fresh_operator ⟨1⟩ (constField 0) (fun _ => 3)
    (solverId 1) ?_
  funext i
  show ∑ j : Fin 1, (⟨1⟩ : TotalVariation).assemble (constField 0) i j * 3 = 3
  rw [Fin.sum_univ_one, hA]
  norm_num

/-- C4: `SquareGradient::filter` ignores its reference-field argument — any
two reference fields give the same result — and, when the solver solves the
system it is handed, the result solves `(M + L)·v = f`. -/
theorem squareGradient_filter_ignores_reference (n : ℕ) (sg : SquareGradient n)
    (u1 u2 : FieldType) (f : Fin n → ℝ) (S : LinearSolver n)
    (hS : ∀ b, mulVec n (fun i j => sg.M i j + sg.L i j)
      (S (fun i j => sg.M i j + sg.L i j) b) = b) :
    SquareGradient.filter n sg u1 f S = SquareGradient.filter n sg u2 f S ∧
    mulVec n (fun i j => sg.M i j + sg.L i j) (SquareGradient.filter n sg u1 f S) = f :=
  ⟨rfl, hS f⟩

/-- Witness for C4: on one dof with `M = L = (1)`, reference fields `0` and
`5`, right-hand side `3` and the solver dividing by 2. -/
theorem squareGradient_filter_ignores_reference_witness :
    SquareGradient.filter 1 sgSample (constField 0) (fun _ => 3) solverHalf =
      SquareGradient.filter 1 sgSample (constField 5) (fun _ => 3) solverHalf ∧
    mulVec 1 (fun i j => sgSample.M i j + sgSample.L i j)
      (SquareGradient.filter 1 sgSample (constField 0) (fun _ => 3) solverHalf) =
      (fun _ => 3) := by
  refine squareGradient_filter_ignores_reference 1 sgSample (constField 0)
    (constField 5) (fun _ => 3) solverHalf ?_
  intro b
  funext i
  simp [mulVec, solverHalf, sgSample, Fin.sum_univ_one, Fin.eq_zero i]
  ring

/-- C5: the `SquareGradient::filter` round-trip — feeding `(M + L)·u` to the
filter recovers `u` when the solver solves the system exactly and the operator
is injective. -/
theorem squareGradient_filter_roundtrip (n : ℕ) (sg : SquareGradient n)
    (uref : FieldType) (u : Fin n → ℝ) (S : LinearSolver n)
    (hS : ∀ b, mulVec n (fun i j => sg.M i j + sg.L i j)
      (S (fun i j => sg.M i j + sg.L i j) b) = b)
    (hinj : Function.Injective (mulVec n (fun i j => sg.M i j + sg.L i j))) :
    SquareGradient.filter n sg uref
      (mulVec n (fun i j => sg.M i j + sg.L i j) u) S = u := by
  apply hinj
  exact hS (mulVec n (fun i j => sg.M i j + sg.L i j) u)

/-- Witness for C5: on one dof with `M = L = (1)` and `u = 7`, the filter
recovers `u` from `(M + L)·u`. -/
theorem squareGradient_filter_roundtrip_witness :
    SquareGradient.filter 1 sgSample (constField 1)
      (mulVec 1 (fun i j => sgSample.M i j + sgSample.L i j) (fun _ => 7))
      solverHalf = (fun _ => 7) := by
  refine squareGradient_filter_roundtrip 1 sgSample (constField 1) (fun _ => 7)
    solverHalf ?_ ?_
  · intro b
    funext i
    simp [mulVec, solverHalf, sgSample, Fin.sum_univ_one, Fin.eq_zero i]
    ring
  · intro x y hxy
    have h0 := congrFun hxy 0
    simp [mulVec, sgSample, Fin.sum_univ_one] at h0
    funext i
    rw [Fin.eq_zero i]
    linarith

/-- C10: the `TotalVariation` constructor discards its discretization
argument — two objects constructed over different discretizations with the
same `α` are equal, so `value`, `derivative` and `filter` agree on every
field; each operation reads its mesh data off the field argument itself. -/
theorem totalVariation_constructor_discards_discretization
    (d1 d2 : Discretization) (alpha : ℝ) :
    TotalVariation.construct d1 alpha = TotalVariation.construct d2 alpha ∧
    (∀ u : FieldType,
      (TotalVariation.construct d1 alpha).value u =
        (TotalVariation.construct d2 alpha).value u) ∧
    (∀ u : FieldType,
      (TotalVariation.construct d1 alpha).derivative u =
        (TotalVariation.construct d2 alpha).derivative u) ∧
    (∀ (u : FieldType) (f : Fin u.dsc.nDofs → ℝ) (S : LinearSolver u.dsc.nDofs),
      (TotalVariation.construct d1 alpha).filter u f S =
        (TotalVariation.construct d2 alpha).filter u f S) :=
  ⟨rfl, fun _ => rfl, fun _ => rfl, fun _ _ _ => rfl⟩

/-! ## Positivity of the assembled filter operator (C8) -/

theorem Vec2.div_x (a : Vec2) (c : ℝ) : (a / c).x = a.x / c := rfl

theorem Vec2.div_y (a : Vec2) (c : ℝ) : (a / c).y = a.y / c := rfl

theorem Vec2.dot_self_nonneg (v : Vec2) : 0 ≤ Vec2.dot v v := by
  unfold Vec2.dot
  nlinarith [sq_nonneg v.x, sq_nonneg v.y]

/-- The divisor `dA = sqrt(du·du + 1)` is at least 1 for every vector `du`. -/
theorem one_le_sqrt_dot_add_one (v : Vec2) : 1 ≤ Real.sqrt (Vec2.dot v v + 1) := by
  have h := Vec2.dot_self_nonneg v
  have h2 := Real.sqrt_le_sqrt (show (1 : ℝ) ≤ Vec2.dot v v + 1 by linarith)
  rwa [Real.sqrt_one] at h2

theorem sq_sqrt_dot_add_one (v : Vec2) :
    Real.sqrt (Vec2.dot v v + 1) ^ 2 = Vec2.dot v v + 1 :=
  Real.sq_sqrt (by have := Vec2.dot_self_nonneg v; linarith)

/-- The anisotropic integrand of the filter operator is pointwise nonnegative:
`g·g − (g·τ)(τ·g) ≥ 0` for the graph normal `τ = du/sqrt(du·du + 1)`, since
`|τ| ≤ 1` and by the Cauchy–Schwarz inequality in the plane. -/
theorem filter_diffusion_nonneg (g du : Vec2) :
    0 ≤ Vec2.dot g g -
      Vec2.dot g (du / Real.sqrt (Vec2.dot du du + 1)) *
        Vec2.dot (du / Real.sqrt (Vec2.dot du du + 1)) g := by
  have h1 : 1 ≤ Real.sqrt (Vec2.dot du du + 1) := one_le_sqrt_dot_add_one du
  have h2 : Real.sqrt (Vec2.dot du du + 1) ^ 2 = Vec2.dot du du + 1 :=
    sq_sqrt_dot_add_one du
  obtain ⟨a, b⟩ := g
  obtain ⟨p, q⟩ := du
  simp only [Vec2.dot, Vec2.div_x, Vec2.div_y] at h1 h2 ⊢
  set dA := Real.sqrt (p * p + q * q + 1) with hdA
  have hpos : 0 < dA := lt_of_lt_of_le one_pos h1
  have hdd : dA * dA = p * p + q * q + 1 := by rw [← h2]; ring
  have hrw1 : a * (p / dA) + b * (q / dA) = (a * p + b * q) / dA := by ring
  have hrw2 : p / dA * a + q / dA * b = (a * p + b * q) / dA := by ring
  rw [hrw1, hrw2, div_mul_div_comm, sub_nonneg,
    div_le_iff₀ (by positivity : (0 : ℝ) < dA * dA)]
  have key : (a * p + b * q) * (a * p + b * q) ≤
      (a * a + b * b) * (p * p + q * q + 1) := by
    nlinarith [sq_nonneg (a * q - b * p), sq_nonneg a, sq_nonneg b]
  rw [hdd]
  exact key

/-- The quadratic form of a left fold accumulating matrix contributions. -/
theorem quadForm_foldl {α : Type} (l : List α) (n : ℕ)
    (F : α → Fin n → Fin n → ℝ) (A0 : Fin n → Fin n → ℝ) (x : Fin n → ℝ) :
    quadForm n (l.foldl (fun A cel => fun gi gj => A gi gj + F cel gi gj) A0) x =
      quadForm n A0 x +
        (l.map (fun cel => ∑ gi, ∑ gj, x gi * F cel gi gj * x gj)).sum := by
  induction l generalizing A0 with
  | nil => simp
  | cons hd tl ih =>
      simp only [List.foldl_cons, List.map_cons, List.sum_cons, ih]
      have h : quadForm n (fun gi gj => A0 gi gj + F hd gi gj) x =
          quadForm n A0 x + ∑ gi, ∑ gj, x gi * F hd gi gj * x gj := by
        unfold quadForm
        rw [← Finset.sum_add_distrib]
        refine Finset.sum_congr rfl (fun gi _ => ?_)
        rw [← Finset.sum_add_distrib]
        refine Finset.sum_congr rfl (fun gj _ => ?_)
        ring
      rw [h]
      ring

/-- Swapping a double sum over global indices past a double sum over local
indices. -/
theorem sum4_swap {n d : ℕ} (f : Fin n → Fin n → Fin d → Fin d → ℝ) :
    ∑ gi, ∑ gj, ∑ i, ∑ j, f gi gj i j = ∑ i, ∑ j, ∑ gi, ∑ gj, f gi gj i j :=
  calc ∑ gi, ∑ gj, ∑ i, ∑ j, f gi gj i j
      = ∑ gi, ∑ i, ∑ gj, ∑ j, f gi gj i j :=
        Finset.sum_congr rfl (fun gi _ => Finset.sum_comm)
    _ = ∑ i, ∑ gi, ∑ gj, ∑ j, f gi gj i j := Finset.sum_comm
    _ = ∑ i, ∑ gi, ∑ j, ∑ gj, f gi gj i j :=
        Finset.sum_congr rfl (fun i _ =>
          Finset.sum_congr rfl (fun gi _ => Finset.sum_comm))
    _ = ∑ i, ∑ j, ∑ gi, ∑ gj, f gi gj i j :=
        Finset.sum_congr rfl (fun i _ => Finset.sum_comm)

/-- The quadratic form of one cell's scatter-added contribution collapses to
the local quadratic form over the cell's dofs. -/
theorem cell_scatter_quad {n d : ℕ} (dof : Fin d → Fin n) (M : Fin d → Fin d → ℝ)
    (x : Fin n → ℝ) :
    ∑ gi, ∑ gj, x gi * (∑ i, ∑ j, if dof i = gi ∧ dof j = gj then M i j else 0) * x gj =
      ∑ i, ∑ j, x (dof i) * M i j * x (dof j) := by
  have h : ∀ gi gj, x gi * (∑ i, ∑ j, if dof i = gi ∧ dof j = gj then M i j else 0) * x gj =
      ∑ i, ∑ j, if dof i = gi ∧ dof j = gj then x gi * M i j * x gj else 0 := by
    intro gi gj
    simp only [Finset.mul_sum, Finset.sum_mul, mul_ite, ite_mul, mul_zero, zero_mul]
  simp only [h]
  rw [sum4_swap]
  refine Finset.sum_congr rfl (fun i _ => Finset.sum_congr rfl (fun j _ => ?_))
  simp [ite_and, Finset.sum_ite_irrel, Finset.sum_const_zero, Finset.sum_ite_eq]

/-- Swapping a sum over quadrature points out of a double sum over local
dofs. -/
theorem sum3_swap {d m : ℕ} (f : Fin d → Fin d → Fin m → ℝ) :
    ∑ i, ∑ j, ∑ q, f i j q = ∑ q, ∑ i, ∑ j, f i j q :=
  calc ∑ i, ∑ j, ∑ q, f i j q
      = ∑ i, ∑ q, ∑ j, f i j q :=
        Finset.sum_congr rfl (fun i _ => Finset.sum_comm)
    _ = ∑ q, ∑ i, ∑ j, f i j q := Finset.sum_comm

/-- The local quadratic form of one cell's mass contributions, written per
quadrature point. -/
theorem cell_quadForm_mass (nDofs dofsPerCell nQ : ℕ)
    (cell : Cell nDofs dofsPerCell nQ) (y : Fin dofsPerCell → ℝ) :
    ∑ i, ∑ j, y i * (∑ q, cell.phi i q * cell.phi j q * cell.JxW q) * y j =
      ∑ q, (∑ i, y i * cell.phi i q) * (∑ i, y i * cell.phi i q) * cell.JxW q := by
  have hpush : ∀ i j : Fin dofsPerCell,
      y i * (∑ q, cell.phi i q * cell.phi j q * cell.JxW q) * y j =
        ∑ q, y i * (cell.phi i q * cell.phi j q * cell.JxW q) * y j := by
    intro i j
    rw [Finset.mul_sum, Finset.sum_mul]
  simp only [hpush]
  rw [sum3_swap]
  refine Finset.sum_congr rfl (fun q _ => ?_)
  rw [Finset.sum_mul_sum, Finset.sum_mul]
  refine Finset.sum_congr rfl (fun i _ => ?_)
  rw [Finset.sum_mul]
  refine Finset.sum_congr rfl (fun j _ => ?_)
  ring

/-- The local quadratic form of one cell's filter contributions, written per
quadrature point: a mass square plus the anisotropic term evaluated at the
test function's gradient. -/
theorem cell_quadForm_filter (nDofs dofsPerCell nQ : ℕ) (alpha : ℝ)
    (cell : Cell nDofs dofsPerCell nQ) (u : Fin nDofs → ℝ)
    (y : Fin dofsPerCell → ℝ) :
    ∑ i, ∑ j, y i * cellFilterMatrix nDofs dofsPerCell nQ alpha cell u i j * y j =
      ∑ q,
        ((∑ i, y i * cell.phi i q) * (∑ i, y i * cell.phi i q) +
          alpha * alpha *
            ((Vec2.dot (testGradient nDofs dofsPerCell nQ cell y q)
                (testGradient nDofs dofsPerCell nQ cell y q) -
              Vec2.dot (testGradient nDofs dofsPerCell nQ cell y q)
                  (tauVec nDofs dofsPerCell nQ alpha cell u q) *
                Vec2.dot (tauVec nDofs dofsPerCell nQ alpha cell u q)
                  (testGradient nDofs dofsPerCell nQ cell y q)) /
              dAval nDofs dofsPerCell nQ alpha cell u q)) *
        cell.JxW q := by
  unfold cellFilterMatrix
  have hpush : ∀ i j : Fin dofsPerCell,
      y i * (∑ q,
        (cell.phi i q * cell.phi j q + alpha * alpha *
          ((Vec2.dot (cell.dphi i q) (cell.dphi j q) -
            Vec2.dot (cell.dphi i q) (tauVec nDofs dofsPerCell nQ alpha cell u q) *
              Vec2.dot (tauVec nDofs dofsPerCell nQ alpha cell u q) (cell.dphi j q)) /
            dAval nDofs dofsPerCell nQ alpha cell u q)) * cell.JxW q) * y j =
      ∑ q, y i *
        ((cell.phi i q * cell.phi j q + alpha * alpha *
          ((Vec2.dot (cell.dphi i q) (cell.dphi j q) -
            Vec2.dot (cell.dphi i q) (tauVec nDofs dofsPerCell nQ alpha cell u q) *
              Vec2.dot (tauVec nDofs dofsPerCell nQ alpha cell u q) (cell.dphi j q)) /
            dAval nDofs dofsPerCell nQ alpha cell u q)) * cell.JxW q) * y j := by
    intro i j
    rw [Finset.mul_sum, Finset.sum_mul]
  simp only [hpush]
  rw [sum3_swap]
  refine Finset.sum_congr rfl (fun q _ => ?_)
  have hphi : (∑ i, y i * cell.phi i q) * (∑ i, y i * cell.phi i q) =
      ∑ i, ∑ j, (y i * cell.phi i q) * (y j * cell.phi j q) :=
    Finset.sum_mul_sum _ _ _ _
  have hGG : Vec2.dot (testGradient nDofs dofsPerCell nQ cell y q)
      (testGradient nDofs dofsPerCell nQ cell y q) =
      ∑ i, ∑ j, y i * y j * Vec2.dot (cell.dphi i q) (cell.dphi j q) := by
    simp only [testGradient, Vec2.dot]
    rw [Finset.sum_mul_sum, Finset.sum_mul_sum, ← Finset.sum_add_distrib]
    refine Finset.sum_congr rfl (fun i _ => ?_)
    rw [← Finset.sum_add_distrib]
    refine Finset.sum_congr rfl (fun j _ => ?_)
    ring
  have hGt : Vec2.dot (testGradient nDofs dofsPerCell nQ cell y q)
      (tauVec nDofs dofsPerCell nQ alpha cell u q) =
      ∑ i, y i * Vec2.dot (cell.dphi i q) (tauVec nDofs dofsPerCell nQ alpha cell u q) := by
    simp only [testGradient, Vec2.dot]
    rw [Finset.sum_mul, Finset.sum_mul, ← Finset.sum_add_distrib]
    refine Finset.sum_congr rfl (fun i _ => ?_)
    ring
  have htG : Vec2.dot (tauVec nDofs dofsPerCell nQ alpha cell u q)
      (testGradient nDofs dofsPerCell nQ cell y q) =
      ∑ j, y j * Vec2.dot (tauVec nDofs dofsPerCell nQ alpha cell u q) (cell.dphi j q) := by
    simp only [testGradient, Vec2.dot]
    rw [Finset.mul_sum, Finset.mul_sum, ← Finset.sum_add_distrib]
    refine Finset.sum_congr rfl (fun j _ => ?_)
    ring
  rw [hphi, hGG, hGt, htG, Finset.sum_mul_sum]
  simp only [← Finset.sum_sub_distrib, Finset.sum_div, Finset.mul_sum,
    ← Finset.sum_add_distrib, Finset.sum_mul]
  refine Finset.sum_congr rfl (fun i _ => Finset.sum_congr rfl (fun j _ => ?_))
  ring

/-- With nonnegative quadrature weights, the quadratic form of the operator
assembled by `TotalVariation::filter` dominates that of its mass part. -/
theorem massPart_le_assemble (tv : TotalVariation) (u : FieldType)
    (hJ : ∀ cell, cell ∈ u.dsc.cells → ∀ q, 0 ≤ cell.JxW q)
    (y : Fin u.dsc.nDofs → ℝ) :
    quadForm u.dsc.nDofs (massPart u) y ≤
      quadForm u.dsc.nDofs (tv.assemble u) y := by
  unfold massPart TotalVariation.assemble
  rw [quadForm_foldl u.dsc.cells u.dsc.nDofs
    (fun cell gi gj => ∑ i, ∑ j, if cell.dof i = gi ∧ cell.dof j = gj then
      (∑ q, cell.phi i q * cell.phi j q * cell.JxW q) else 0) (fun _ _ => 0) y]
  rw [quadForm_foldl u.dsc.cells u.dsc.nDofs
    (fun cell gi gj => ∑ i, ∑ j, if cell.dof i = gi ∧ cell.dof j = gj then
      cellFilterMatrix u.dsc.nDofs u.dsc.dofsPerCell u.dsc.nQ tv.alpha
        cell u.coeffs i j else 0) (fun _ _ => 0) y]
  have h0 : quadForm u.dsc.nDofs (fun _ _ => 0) y = 0 := by simp [quadForm]
  rw [h0]
  apply add_le_add_left
  apply List.sum_le_sum
  intro cell hcell
  rw [cell_scatter_quad cell.dof _ y, cell_scatter_quad cell.dof _ y]
  rw [cell_quadForm_mass u.dsc.nDofs u.dsc.dofsPerCell u.dsc.nQ cell
    (fun k => y (cell.dof k))]
  rw [cell_quadForm_filter u.dsc.nDofs u.dsc.dofsPerCell u.dsc.nQ tv.alpha cell
    u.coeffs (fun k => y (cell.dof k))]
  apply Finset.sum_le_sum
  intro q _
  have hw := hJ cell hcell q
  have hdiff : 0 ≤ Vec2.dot (testGradient u.dsc.nDofs u.dsc.dofsPerCell u.dsc.nQ
        cell (fun k => y (cell.dof k)) q)
      (testGradient u.dsc.nDofs u.dsc.dofsPerCell u.dsc.nQ cell
        (fun k => y (cell.dof k)) q) -
      Vec2.dot (testGradient u.dsc.nDofs u.dsc.dofsPerCell u.dsc.nQ cell
          (fun k => y (cell.dof k)) q)
        (tauVec u.dsc.nDofs u.dsc.dofsPerCell u.dsc.nQ tv.alpha cell u.coeffs q) *
      Vec2.dot (tauVec u.dsc.nDofs u.dsc.dofsPerCell u.dsc.nQ tv.alpha cell
          u.coeffs q)
        (testGradient u.dsc.nDofs u.dsc.dofsPerCell u.dsc.nQ cell
          (fun k => y (cell.dof k)) q) :=
    filter_diffusion_nonneg _ (duVec u.dsc.nDofs u.dsc.dofsPerCell u.dsc.nQ
      tv.alpha cell u.coeffs q)
  have hdA : 1 ≤ dAval u.dsc.nDofs u.dsc.dofsPerCell u.dsc.nQ tv.alpha cell
      u.coeffs q :=
    one_le_sqrt_dot_add_one _
  have hterm : 0 ≤ tv.alpha * tv.alpha *
      ((Vec2.dot (testGradient u.dsc.nDofs u.dsc.dofsPerCell u.dsc.nQ cell
          (fun k => y (cell.dof k)) q)
        (testGradient u.dsc.nDofs u.dsc.dofsPerCell u.dsc.nQ cell
          (fun k => y (cell.dof k)) q) -
        Vec2.dot (testGradient u.dsc.nDofs u.dsc.dofsPerCell u.dsc.nQ cell
            (fun k => y (cell.dof k)) q)
          (tauVec u.dsc.nDofs u.dsc.dofsPerCell u.dsc.nQ tv.alpha cell u.coeffs q) *
        Vec2.dot (tauVec u.dsc.nDofs u.dsc.dofsPerCell u.dsc.nQ tv.alpha cell
            u.coeffs q)
          (testGradient u.dsc.nDofs u.dsc.dofsPerCell u.dsc.nQ cell
            (fun k => y (cell.dof k)) q)) /
        dAval u.dsc.nDofs u.dsc.dofsPerCell u.dsc.nQ tv.alpha cell u.coeffs q) :=
    mul_nonneg (mul_self_nonneg _) (div_nonneg hdiff (by linarith))
  nlinarith [mul_nonneg hterm hw]

/-- C8: in every `TotalVariation` operation the divisor
`dA = sqrt(du·du + 1)` is at least 1 at every quadrature point of every cell,
so no division by zero occurs; and — granting the external collaborator's
facts that quadrature weights are nonnegative and the discretization's mass
matrix is positive definite — the freshly assembled filter operator is
nonsingular (its matrix-vector action is injective). -/
theorem totalVariation_dA_ge_one_and_nonsingular (tv : TotalVariation)
    (u : FieldType) :
    (∀ cell, cell ∈ u.dsc.cells → ∀ q : Fin u.dsc.nQ,
      1 ≤ dAval u.dsc.nDofs u.dsc.dofsPerCell u.dsc.nQ tv.alpha cell u.coeffs q) ∧
    ((∀ cell, cell ∈ u.dsc.cells → ∀ q, 0 ≤ cell.JxW q) →
      (∀ x : Fin u.dsc.nDofs → ℝ, x ≠ 0 →
        0 < quadForm u.dsc.nDofs (massPart u) x) →
      Function.Injective (mulVec u.dsc.nDofs (tv.assemble u))) := by
  constructor
  · intro cell _ q
    exact one_le_sqrt_dot_add_one _
  · intro hJ hM x1 x2 hmul
    have hsub : mulVec u.dsc.nDofs (tv.assemble u) (fun i => x1 i - x2 i) =
        fun _ => 0 := by
      funext i
      have h := congrFun hmul i
      simp only [mulVec, mul_sub, Finset.sum_sub_distrib] at h ⊢
      linarith [h]
    by_cases hy : (fun i => x1 i - x2 i) = (fun _ => (0 : ℝ))
    · funext i
      have h := congrFun hy i
      simpa [sub_eq_zero] using h
    · exfalso
      have h1 : 0 < quadForm u.dsc.nDofs (massPart u) (fun i => x1 i - x2 i) := by
        apply hM
        intro hz
        exact hy (by funext i; simpa using congrFun hz i)
      have h2 := massPart_le_assemble tv u hJ (fun i => x1 i - x2 i)
      have h3 : quadForm u.dsc.nDofs (tv.assemble u) (fun i => x1 i - x2 i) = 0 := by
        unfold quadForm
        have hrow : ∀ i, ∑ j, (x1 i - x2 i) * tv.assemble u i j * (x1 j - x2 j) =
            (x1 i - x2 i) * ∑ j, tv.assemble u i j * (x1 j - x2 j) := by
          intro i
          rw [Finset.mul_sum]
          refine Finset.sum_congr rfl (fun j _ => ?_)
          ring
        calc ∑ i, ∑ j, (x1 i - x2 i) * tv.assemble u i j * (x1 j - x2 j)
            = ∑ i, (x1 i - x2 i) * ∑ j, tv.assemble u i j * (x1 j - x2 j) :=
              Finset.sum_congr rfl (fun i _ => hrow i)
          _ = ∑ i : Fin u.dsc.nDofs, (x1 i - x2 i) * 0 := by
              refine Finset.sum_congr rfl (fun i _ => ?_)
              rw [show (∑ j, tv.assemble u i j * (x1 j - x2 j)) = 0 from
                congrFun hsub i]
          _ = 0 := by simp
      linarith

/-- Witness for C8: on the one-cell discretization with zero reference field
and `α = 1`: the divisor is at least 1 and the assembled operator (the 1×1
identity) is injective. -/
theorem totalVariation_dA_ge_one_and_nonsingular_witness :
    1 ≤ dAval (constField 0).dsc.nDofs (constField 0).dsc.dofsPerCell
      (constField 0).dsc.nQ (1 : ℝ) unitCell (constField 0).coeffs 0 ∧
    Function.Injective (mulVec (constField 0).dsc.nDofs
      ((⟨1⟩ : TotalVariation).assemble (constField 0))) := by
  obtain ⟨h1, h2⟩ := totalVariation_dA_ge_one_and_nonsingular ⟨1⟩ (constField 0)
  refine ⟨h1 unitCell (by simp [constField, unitDiscretization]) 0, h2 ?_ ?_⟩
  · intro cell hcell q
    have hc : cell = unitCell := by
      simpa [constField, unitDiscretization] using hcell
    subst hc
    simp [unitCell]
  · intro x hx
    have hx0 : x 0 ≠ 0 := by
      intro h0
      apply hx
      funext i
      rw [Fin.eq_zero i]
      simpa using h0
    have hq : quadForm (constField 0).dsc.nDofs (massPart (constField 0)) x =
        x 0 * (1 * 1 * 1) * x 0 := by
      show ∑ i : Fin 1, ∑ j : Fin 1, x i * massPart (constField 0) i j * x j =
        x 0 * (1 * 1 * 1) * x 0
      rw [Fin.sum_univ_one, Fin.sum_univ_one]
      have hm : massPart (constField 0) 0 0 = 1 * 1 * 1 := by
        unfold massPart constField unitDiscretization
        simp [unitCell, Fin.sum_univ_one]
      rw [hm]
    rw [hq]
    have := mul_self_pos.mpr hx0
    nlinarith [this]

end

end Icepack
